import Mathlib

/-!
Shallow embedding of the finite-volume solver in `util/lxf_rk2.py`
(second-order Lax-Friedrichs / Richtmyer scheme with minmod limiting for
the scalar conservation law with flux `f(q) = q·(1-q)`).

Real (floating-point) arithmetic is modelled exactly over `ℚ`.  A state is
a function `ℕ → ℚ`; only the indices `0 … m+3` correspond to entries of the
numpy arrays of length `m+4` (m physical cells plus two ghost cells on each
side), and every definition below reads a state only at such indices when
producing a value at such an index.  The cell count `m` is kept as a
parameter (the script fixes `m = 100`); `dx = 1/m`, `dt = 0.4·dx = 2/5·dx`,
final time `T = 0.5`.

Buffer reuse in the script is benign and the embedding is pure:
`dQplus[m+3]`, `dQminus[0]`, `F[0]` and `F[m+3]` are initialised to zero and
never written afterwards, which the guarded definitions reproduce.
-/

namespace LxF

/-- The flux function `f(q) = q*(1.0-q)` (line `def f(q)`). -/
def f (q : ℚ) : ℚ := q * (1 - q)

/-- Numpy sign `np.sign` on exact rationals. -/
def sign (a : ℚ) : ℚ := if a < 0 then -1 else if a = 0 then 0 else 1

/-- Source line `minmod(a,b) = 0.5*(np.sign(a)+np.sign(b))*np.minimum(np.abs(a),np.abs(b))`. -/
def minmod (a b : ℚ) : ℚ := 1/2 * (sign a + sign b) * min |a| |b|

/-- Source line `dx = 1./m`, the size of one grid cell. -/
def dx (m : ℕ) : ℚ := 1 / m

/-- Source line `T = 0.5`, the final time. -/
def T : ℚ := 1/2

/-- Source line `dt = 0.4 * dx` (0.4 = 2/5), the fixed time step. -/
def dt (m : ℕ) : ℚ := 2/5 * dx m

/-- Numpy `np.arange(start, stop, step)` in exact arithmetic (positive step):
the `⌈(stop-start)/step⌉` values `start + k·step`, `k = 0, 1, …`. -/
def arange (start stop step : ℚ) : List ℚ :=
  (List.range (Int.ceil ((stop - start) / step)).toNat).map (fun k : ℕ => start + k * step)

/-- The grid `x = np.arange(-3*dx/2, 1.+5*dx/2, dx)`. -/
def x (m : ℕ) : List ℚ := arange (-3 * dx m / 2) (1 + 5 * dx m / 2) (dx m)

/-- The `i`-th cell-center coordinate, `x[i] = -3·dx/2 + i·dx`. -/
def xc (m : ℕ) (i : ℕ) : ℚ := -3 * dx m / 2 + i * dx m

/-- Source line `dQplus[:-1] = Q[1:]-Q[:-1]`; the last entry stays at its initial 0. -/
def dQplus (m : ℕ) (Q : ℕ → ℚ) (i : ℕ) : ℚ :=
  if i ≤ m + 2 then Q (i+1) - Q i else 0

/-- Source line `dQminus[1:] = Q[1:]-Q[:-1]`; the first entry stays at its initial 0. -/
def dQminus (m : ℕ) (Q : ℕ → ℚ) (i : ℕ) : ℚ :=
  if 1 ≤ i ∧ i ≤ m + 3 then Q i - Q (i-1) else 0

/-- Source line `sigma = minmod(dQplus,dQminus)/dx`, the limited slope. -/
def sigma (m : ℕ) (Q : ℕ → ℚ) (i : ℕ) : ℚ :=
  minmod (dQplus m Q i) (dQminus m Q i) / dx m

/-- Source line `qplus = Q[1:-1] - sigma[1:-1]*dx/2.0`, the edge state `q^+_{i-1/2}`
(stored here at interface index `i`). -/
def qplus (m : ℕ) (Q : ℕ → ℚ) (i : ℕ) : ℚ := Q i - sigma m Q i * dx m / 2

/-- Source line `qminus = Q[:-2] + sigma[:-2]*dx/2.0`, the edge state `q^-_{i-1/2}`. -/
def qminus (m : ℕ) (Q : ℕ → ℚ) (i : ℕ) : ℚ := Q (i-1) + sigma m Q (i-1) * dx m / 2

/-- Source line `alpha = np.maximum(np.abs(1.-2.*qplus), np.abs(1.-2.*qminus))`. -/
def alpha (m : ℕ) (Q : ℕ → ℚ) (i : ℕ) : ℚ :=
  max |1 - 2 * qplus m Q i| |1 - 2 * qminus m Q i|

/-- Source line `F[1:-1] = 0.5*(f(qplus)+f(qminus) - alpha*dx/dt*(qplus-qminus))`, the
numerical flux at interface `i-1/2`; `F[0]` and `F[m+3]` stay at 0. -/
def F (m : ℕ) (Q : ℕ → ℚ) (i : ℕ) : ℚ :=
  if 1 ≤ i ∧ i ≤ m + 2 then
    1/2 * (f (qplus m Q i) + f (qminus m Q i)
      - alpha m Q i * dx m / dt m * (qplus m Q i - qminus m Q i))
  else 0

/-- The conservative stage update `Q[i] - dt/dx*(F[i+1]-F[i])` (used on the
interior `2 ≤ i ≤ m+1`). -/
def predictor (m : ℕ) (Q : ℕ → ℚ) (i : ℕ) : ℚ :=
  Q i - dt m / dx m * (F m Q (i+1) - F m Q i)

/-- Source line `Qstar[2:-2] = Q[2:-2] - dt/dx*(F[3:-1]-F[2:-2])` followed by the
boundary extension `Qstar[0:2] = Qstar[2]`, `Qstar[-2:] = Qstar[-3]`. -/
def Qstar (m : ℕ) (Q : ℕ → ℚ) (i : ℕ) : ℚ :=
  if i ≤ 1 then predictor m Q 2
  else if m + 2 ≤ i then predictor m Q (m+1)
  else predictor m Q i

/-- Source line `Qnew[2:-2] = 0.5*Q[2:-2] + 0.5*(Qstar[2:-2] - dt/dx*(F[3:-1]-F[2:-2]))`
with the fluxes recomputed from the boundary-extended `Qstar`. -/
def corrector (m : ℕ) (Q : ℕ → ℚ) (i : ℕ) : ℚ :=
  1/2 * Q i + 1/2 * (Qstar m Q i
    - dt m / dx m * (F m (Qstar m Q) (i+1) - F m (Qstar m Q) i))

/-- One full time step: corrector on the interior, then the boundary
extension `Q[0:2] = Q[2]`, `Q[-2:] = Q[-3]` on the copied result. -/
def step (m : ℕ) (Q : ℕ → ℚ) (i : ℕ) : ℚ :=
  if i ≤ 1 then corrector m Q 2
  else if m + 2 ≤ i then corrector m Q (m+1)
  else corrector m Q i

/-- The `while t < T` loop: the list of states appended to `QQ` after the
initial one, in order. -/
def loop (m : ℕ) (hm : 0 < m) (t : ℚ) (Q : ℕ → ℚ) : List (ℕ → ℚ) :=
  if _h : t < T then step m Q :: loop m hm (t + dt m) (step m Q) else []
  termination_by (Int.ceil ((T - t) / dt m)).toNat
  decreasing_by
    have hdx : (0:ℚ) < dx m := by
      have : (0:ℚ) < (m:ℚ) := by exact_mod_cast hm
      simp only [dx]
      positivity
    have hdt : (0:ℚ) < dt m := by
      simp only [dt]; positivity
    have h1 : (0:ℚ) < (T - t) / dt m := div_pos (by linarith) hdt
    have h2 : 1 ≤ Int.ceil ((T - t) / dt m) := by
      have := Int.ceil_pos.mpr h1
      omega
    have h3 : Int.ceil ((T - (t + dt m)) / dt m) = Int.ceil ((T - t) / dt m) - 1 := by
      have heq : (T - (t + dt m)) / dt m = (T - t) / dt m - 1 := by
        field_simp
        ring
      rw [heq, Int.ceil_sub_one]
    rw [h3]
    omega

/-- The initial state `Q = q0(x)` evaluated on the whole grid, ghost cells
included (the script uses `q0(x) = 0.9*np.exp(-100*(x-0.5)**2)`). -/
def initQ (m : ℕ) (q0 : ℚ → ℚ) (i : ℕ) : ℚ := q0 (xc m i)

/-- The history `QQ`, starting from an arbitrary initial state. -/
def historyQ (m : ℕ) (hm : 0 < m) (Q0 : ℕ → ℚ) : List (ℕ → ℚ) :=
  Q0 :: loop m hm 0 Q0

/-- The history `QQ` of the script, for the initial-condition function `q0`. -/
def history (m : ℕ) (hm : 0 < m) (q0 : ℚ → ℚ) : List (ℕ → ℚ) :=
  historyQ m hm (initQ m q0)

/-- The whole program: Python raises `ZeroDivisionError` at the setup line
`dx = 1./m` when `m = 0`, before the loop runs; otherwise it produces the
history. -/
def program (m : ℕ) (q0 : ℚ → ℚ) : Except String (List (ℕ → ℚ)) :=
  if h : m = 0 then Except.error "ZeroDivisionError: float division by zero"
  else Except.ok (history m (Nat.pos_of_ne_zero h) q0)

/-- Total mass of the interior cells (padded indices 2 … m+1), `∑ Q[i]·dx`. -/
def interiorSum (m : ℕ) (Q : ℕ → ℚ) : ℚ :=
  ∑ k ∈ Finset.range m, Q (k + 2) * dx m

/-- The all-zero state (used to instantiate theorems at a concrete input). -/
def zeroQ : ℕ → ℚ := fun _ => 0

lemma dx_pos {m : ℕ} (hm : 0 < m) : 0 < dx m := by
  have : (0:ℚ) < (m:ℚ) := by exact_mod_cast hm
  simp only [dx]
  positivity

lemma dt_pos {m : ℕ} (hm : 0 < m) : 0 < dt m := by
  have := dx_pos hm
  simp only [dt]
  positivity

lemma loop_of_lt {m : ℕ} (hm : 0 < m) {t : ℚ} (h : t < T) (Q : ℕ → ℚ) :
    loop m hm t Q = step m Q :: loop m hm (t + dt m) (step m Q) := by
  rw [loop]
  simp [h]

lemma loop_of_ge {m : ℕ} (hm : 0 < m) {t : ℚ} (h : ¬ t < T) (Q : ℕ → ℚ) :
    loop m hm t Q = [] := by
  rw [loop]
  simp [h]

lemma m100_pos : 0 < 100 := by norm_num

lemma minmod_comm (a b : ℚ) : minmod a b = minmod b a := by
  simp only [minmod]
  rw [min_comm, add_comm]

lemma minmod_of_pos {a b : ℚ} (ha : 0 < a) (hb : 0 < b) : minmod a b = min |a| |b| := by
  have hsa : sign a = 1 := by simp [sign, not_lt.mpr ha.le, ha.ne']
  have hsb : sign b = 1 := by simp [sign, not_lt.mpr hb.le, hb.ne']
  simp only [minmod, hsa, hsb]
  ring

lemma minmod_of_neg {a b : ℚ} (ha : a < 0) (hb : b < 0) : minmod a b = -min |a| |b| := by
  have hsa : sign a = -1 := by simp [sign, ha]
  have hsb : sign b = -1 := by simp [sign, hb]
  simp only [minmod, hsa, hsb]
  ring

lemma minmod_eq_zero_iff (a b : ℚ) : minmod a b = 0 ↔ a = 0 ∨ b = 0 ∨ a * b < 0 := by
  rcases lt_trichotomy a 0 with ha | ha | ha
  · rcases lt_trichotomy b 0 with hb | hb | hb
    · rw [minmod_of_neg ha hb]
      have hmin : 0 < min |a| |b| := lt_min (abs_pos.mpr ha.ne) (abs_pos.mpr hb.ne)
      constructor
      · intro h; linarith
      · rintro (h | h | h)
        · exact absurd h ha.ne
        · exact absurd h hb.ne
        · nlinarith
    · subst hb; simp [minmod, sign]
    · have hs : sign a + sign b = 0 := by simp [sign, ha, not_lt.mpr hb.le, hb.ne']
      simp only [minmod, hs]
      constructor
      · intro _; exact Or.inr (Or.inr (mul_neg_of_neg_of_pos ha hb))
      · intro _; ring
  · subst ha; simp [minmod, sign]
  · rcases lt_trichotomy b 0 with hb | hb | hb
    · have hs : sign a + sign b = 0 := by simp [sign, hb, not_lt.mpr ha.le, ha.ne']
      simp only [minmod, hs]
      constructor
      · intro _; exact Or.inr (Or.inr (mul_neg_of_pos_of_neg ha hb))
      · intro _; ring
    · subst hb; simp [minmod, sign]
    · rw [minmod_of_pos ha hb]
      have hmin : 0 < min |a| |b| := lt_min (abs_pos.mpr ha.ne') (abs_pos.mpr hb.ne')
      constructor
      · intro h; linarith
      · rintro (h | h | h)
        · exact absurd h ha.ne'
        · exact absurd h hb.ne'
        · nlinarith

lemma abs_minmod_le (a b : ℚ) : |minmod a b| ≤ min |a| |b| := by
  rcases lt_trichotomy a 0 with ha | ha | ha
  · rcases lt_trichotomy b 0 with hb | hb | hb
    · rw [minmod_of_neg ha hb, abs_neg, abs_of_nonneg (le_min (abs_nonneg a) (abs_nonneg b))]
    · subst hb; simp [minmod, sign, abs_nonneg, le_min_iff]
    · have hs : sign a + sign b = 0 := by simp [sign, ha, not_lt.mpr hb.le, hb.ne']
      simp only [minmod, hs]
      simp [le_min_iff, abs_nonneg]
  · subst ha; simp [minmod, sign, le_min_iff, abs_nonneg]
  · rcases lt_trichotomy b 0 with hb | hb | hb
    · have hs : sign a + sign b = 0 := by simp [sign, hb, not_lt.mpr ha.le, ha.ne']
      simp only [minmod, hs]
      simp [le_min_iff, abs_nonneg]
    · subst hb; simp [minmod, sign, le_min_iff, abs_nonneg]
    · rw [minmod_of_pos ha hb, abs_of_nonneg (le_min (abs_nonneg a) (abs_nonneg b))]

/-- C1: in every stage of every time step, the interior cells (padded
indices `2 ≤ i ≤ m+1`) receive the exact conservative finite-volume
update: the predictor writes `Qstar[i] = Q[i] - dt/dx·(F[i+1/2] - F[i-1/2])`
with fluxes computed from `Q`, and the corrector writes
`Qnew[i] = 0.5·Q[i] + 0.5·(Qstar[i] - dt/dx·(Fstar[i+1/2] - Fstar[i-1/2]))`
with fluxes computed from the boundary-extended `Qstar`. -/
theorem stage_updates_conservative (m : ℕ) (Q : ℕ → ℚ) (i : ℕ)
    (h2 : 2 ≤ i) (h3 : i ≤ m + 1) :
    Qstar m Q i = Q i - dt m / dx m * (F m Q (i+1) - F m Q i) ∧
    step m Q i = 1/2 * Q i + 1/2 * (Qstar m Q i
      - dt m / dx m * (F m (Qstar m Q) (i+1) - F m (Qstar m Q) i)) := by
  constructor
  · simp only [Qstar, predictor]
    rw [if_neg (by omega), if_neg (by omega)]
  · simp only [step, corrector]
    rw [if_neg (by omega), if_neg (by omega)]

/-- Witness for C1 at the concrete input `m = 1`, `Q = 0`, `i = 2`. -/
theorem stage_updates_conservative_witness :
    2 ≤ 2 ∧ 2 ≤ 1 + 1 ∧
    (Qstar 1 zeroQ 2 = zeroQ 2 - dt 1 / dx 1 * (F 1 zeroQ 3 - F 1 zeroQ 2) ∧
     step 1 zeroQ 2 = 1/2 * zeroQ 2 + 1/2 * (Qstar 1 zeroQ 2
       - dt 1 / dx 1 * (F 1 (Qstar 1 zeroQ) 3 - F 1 (Qstar 1 zeroQ) 2))) :=
  ⟨by norm_num, by norm_num,
    stage_updates_conservative 1 zeroQ 2 (by norm_num) (by norm_num)⟩

/-- C2: at every interior interface (padded indices `1 ≤ i ≤ m+2`) the
numerical flux is `F = 0.5·(f(qplus) + f(qminus) - alpha·(dx/dt)·(qplus - qminus))`
with `qplus = Q[i] - sigma[i]·dx/2`, `qminus = Q[i-1] + sigma[i-1]·dx/2`,
`alpha = max(|1-2·qplus|, |1-2·qminus|)` and `f(q) = q·(1-q)`; the
dissipation coefficient is `alpha·(dx/dt)`, not `alpha` alone. -/
theorem flux_formula (m : ℕ) (Q : ℕ → ℚ) (i : ℕ) (h1 : 1 ≤ i) (h2 : i ≤ m + 2) :
    F m Q i = 1/2 * (f (qplus m Q i) + f (qminus m Q i)
      - alpha m Q i * (dx m / dt m) * (qplus m Q i - qminus m Q i)) ∧
    qplus m Q i = Q i - sigma m Q i * dx m / 2 ∧
    qminus m Q i = Q (i-1) + sigma m Q (i-1) * dx m / 2 ∧
    alpha m Q i = max |1 - 2 * qplus m Q i| |1 - 2 * qminus m Q i| ∧
    f (qplus m Q i) = qplus m Q i * (1 - qplus m Q i) := by
  refine ⟨?_, rfl, rfl, rfl, rfl⟩
  simp only [F]
  rw [if_pos ⟨h1, h2⟩]
  ring

/-- Witness for C2 at the concrete input `m = 1`, `Q = 0`, `i = 1`. -/
theorem flux_formula_witness :
    1 ≤ 1 ∧ 1 ≤ 1 + 2 ∧
    (F 1 zeroQ 1 = 1/2 * (f (qplus 1 zeroQ 1) + f (qminus 1 zeroQ 1)
      - alpha 1 zeroQ 1 * (dx 1 / dt 1) * (qplus 1 zeroQ 1 - qminus 1 zeroQ 1)) ∧
     qplus 1 zeroQ 1 = zeroQ 1 - sigma 1 zeroQ 1 * dx 1 / 2 ∧
     qminus 1 zeroQ 1 = zeroQ (1-1) + sigma 1 zeroQ (1-1) * dx 1 / 2 ∧
     alpha 1 zeroQ 1 = max |1 - 2 * qplus 1 zeroQ 1| |1 - 2 * qminus 1 zeroQ 1| ∧
     f (qplus 1 zeroQ 1) = qplus 1 zeroQ 1 * (1 - qplus 1 zeroQ 1)) :=
  ⟨by norm_num, by norm_num, flux_formula 1 zeroQ 1 (by norm_num) (by norm_num)⟩

/-- C9: the configuration that would make `dx` (and hence `dt`) zero is
`m = 0`; there Python raises `ZeroDivisionError` at the setup line
`dx = 1./m`, before the compute loop ever runs, so no history (and no NaN)
is ever produced; for every positive `m` the divisors are nonzero. -/
theorem config_zero_fails_fast (q0 : ℚ → ℚ) :
    program 0 q0 = Except.error "ZeroDivisionError: float division by zero" ∧
    (∀ l, program 0 q0 ≠ Except.ok l) ∧
    (∀ m : ℕ, 0 < m → dx m ≠ 0 ∧ dt m ≠ 0) := by
  refine ⟨rfl, ?_, ?_⟩
  · intro l h
    rw [show program 0 q0 = Except.error "ZeroDivisionError: float division by zero" from rfl] at h
    exact Except.noConfusion h
  · intro m hm
    exact ⟨(dx_pos hm).ne', (dt_pos hm).ne'⟩

/-- C3: the limited slope `sigma[i] = minmod(dQplus[i], dQminus[i])/dx`
vanishes exactly when the two differences have opposite signs or either is
zero; otherwise it carries their common sign and has magnitude
`min(|dQplus[i]|, |dQminus[i]|)/dx`; in all cases its magnitude is at most
`min(|dQplus[i]|, |dQminus[i]|)/dx`. -/
theorem limiter_spec (m : ℕ) (hm : 0 < m) (Q : ℕ → ℚ) (i : ℕ) :
    (sigma m Q i = 0 ↔
      dQplus m Q i = 0 ∨ dQminus m Q i = 0 ∨ dQplus m Q i * dQminus m Q i < 0) ∧
    (0 < dQplus m Q i → 0 < dQminus m Q i →
      0 < sigma m Q i ∧ sigma m Q i = min |dQplus m Q i| |dQminus m Q i| / dx m) ∧
    (dQplus m Q i < 0 → dQminus m Q i < 0 →
      sigma m Q i < 0 ∧ sigma m Q i = -(min |dQplus m Q i| |dQminus m Q i| / dx m)) ∧
    |sigma m Q i| ≤ min |dQplus m Q i| |dQminus m Q i| / dx m := by
  have hdx := dx_pos hm
  set a := dQplus m Q i with ha
  set b := dQminus m Q i with hb
  have hsig : sigma m Q i = minmod a b / dx m := rfl
  refine ⟨?_, ?_, ?_, ?_⟩
  · rw [hsig, div_eq_zero_iff]
    constructor
    · rintro (h | h)
      · exact (minmod_eq_zero_iff a b).mp h
      · exact absurd h hdx.ne'
    · intro h
      exact Or.inl ((minmod_eq_zero_iff a b).mpr h)
  · intro hpa hpb
    rw [hsig, minmod_of_pos hpa hpb]
    have hmin : 0 < min |a| |b| := lt_min (abs_pos.mpr hpa.ne') (abs_pos.mpr hpb.ne')
    exact ⟨div_pos hmin hdx, rfl⟩
  · intro hna hnb
    rw [hsig, minmod_of_neg hna hnb]
    have hmin : 0 < min |a| |b| := lt_min (abs_pos.mpr hna.ne) (abs_pos.mpr hnb.ne)
    constructor
    · exact div_neg_of_neg_of_pos (by linarith) hdx
    · rw [neg_div]
  · rw [hsig, abs_div, abs_of_pos hdx]
    exact (div_le_div_iff_of_pos_right hdx).mpr (abs_minmod_le a b)

/-- Witness for C3 at the concrete input `m = 1`, `Q = 0`, `i = 0`. -/
theorem limiter_spec_witness :
    (0:ℕ) < 1 ∧
    ((sigma 1 zeroQ 0 = 0 ↔
      dQplus 1 zeroQ 0 = 0 ∨ dQminus 1 zeroQ 0 = 0 ∨
        dQplus 1 zeroQ 0 * dQminus 1 zeroQ 0 < 0) ∧
    (0 < dQplus 1 zeroQ 0 → 0 < dQminus 1 zeroQ 0 →
      0 < sigma 1 zeroQ 0 ∧
        sigma 1 zeroQ 0 = min |dQplus 1 zeroQ 0| |dQminus 1 zeroQ 0| / dx 1) ∧
    (dQplus 1 zeroQ 0 < 0 → dQminus 1 zeroQ 0 < 0 →
      sigma 1 zeroQ 0 < 0 ∧
        sigma 1 zeroQ 0 = -(min |dQplus 1 zeroQ 0| |dQminus 1 zeroQ 0| / dx 1)) ∧
    |sigma 1 zeroQ 0| ≤ min |dQplus 1 zeroQ 0| |dQminus 1 zeroQ 0| / dx 1) :=
  ⟨by norm_num, limiter_spec 1 (by norm_num) zeroQ 0⟩

/-- C7: for every positive `m` the grid `np.arange(-3·dx/2, 1+5·dx/2, dx)`
has exactly `m+4` coordinates, its `k`-th coordinate is `-3·dx/2 + k·dx`,
consecutive coordinates are strictly increasing with constant spacing `dx`,
the first is `-3·dx/2`, and the last is `dx` short of the exclusive stop
value `1 + 5·dx/2` (i.e. it equals `1 + 3·dx/2`). -/
theorem grid_points (m : ℕ) (hm : 0 < m) :
    (x m).length = m + 4 ∧
    (∀ k, k < m + 4 → (x m)[k]? = some (xc m k)) ∧
    (x m)[0]? = some (-3 * dx m / 2) ∧
    (∀ k, xc m (k+1) - xc m k = dx m ∧ xc m k < xc m (k+1)) ∧
    (x m)[m+3]? = some (1 + 5 * dx m / 2 - dx m) := by
  have hm' : (m:ℚ) ≠ 0 := by exact_mod_cast hm.ne'
  have hq : (1 + 5 * dx m / 2 - -3 * dx m / 2) / dx m = (m:ℚ) + 4 := by
    simp only [dx]
    field_simp
    ring
  have hn : (Int.ceil ((1 + 5 * dx m / 2 - -3 * dx m / 2) / dx m)).toNat = m + 4 := by
    rw [hq, show ((m:ℚ) + 4) = ((m + 4 : ℕ) : ℚ) by push_cast; ring, Int.ceil_natCast]
    omega
  have hxm : x m = (List.range (m+4)).map (fun k : ℕ => -3 * dx m / 2 + (k:ℚ) * dx m) := by
    simp only [x, arange]
    rw [hn]
  have hlen : (x m).length = m + 4 := by
    rw [hxm, List.length_map, List.length_range]
  have hget : ∀ k, k < m + 4 → (x m)[k]? = some (xc m k) := by
    intro k hk
    rw [hxm, List.getElem?_map, List.getElem?_range hk]
    rfl
  refine ⟨hlen, hget, ?_, ?_, ?_⟩
  · rw [hget 0 (by omega)]
    simp [xc]
  · intro k
    have hdx := dx_pos hm
    constructor
    · simp only [xc]; push_cast; ring
    · simp only [xc]
      have : ((k:ℚ) + 1) * dx m = (k:ℚ) * dx m + dx m := by ring
      push_cast
      linarith
  · rw [hget (m+3) (by omega)]
    congr 1
    simp only [xc, dx]
    field_simp
    ring

lemma ceil_measure_succ {m : ℕ} (hm : 0 < m) {t : ℚ} (h : t < T) :
    Int.ceil ((T - (t + dt m)) / dt m) = Int.ceil ((T - t) / dt m) - 1 ∧
    1 ≤ Int.ceil ((T - t) / dt m) := by
  have hdt := dt_pos hm
  constructor
  · have heq : (T - (t + dt m)) / dt m = (T - t) / dt m - 1 := by
      field_simp
      ring
    rw [heq, Int.ceil_sub_one]
  · have h1 : (0:ℚ) < (T - t) / dt m := div_pos (by linarith) hdt
    have := Int.ceil_pos.mpr h1
    omega

lemma loop_length {m : ℕ} (hm : 0 < m) :
    ∀ (n : ℕ) (t : ℚ) (Q : ℕ → ℚ), T ≤ t + n * dt m →
      (∀ k : ℕ, k < n → t + k * dt m < T) → (loop m hm t Q).length = n := by
  intro n
  induction n with
  | zero =>
    intro t Q h1 _
    norm_num at h1
    rw [loop_of_ge hm (not_lt.mpr h1) Q]
    rfl
  | succ n ih =>
    intro t Q h1 h2
    have h0 : t < T := by
      have := h2 0 (Nat.succ_pos n)
      norm_num at this
      exact this
    rw [loop_of_lt hm h0 Q, List.length_cons]
    have ha : T ≤ (t + dt m) + n * dt m := by push_cast at h1 ⊢; linarith
    have hb : ∀ k : ℕ, k < n → (t + dt m) + k * dt m < T := by
      intro k hk
      have := h2 (k+1) (by omega)
      push_cast at this ⊢
      linarith
    rw [ih (t + dt m) (step m Q) ha hb]

lemma loop_all {m : ℕ} (hm : 0 < m) (P : (ℕ → ℚ) → Prop) (hP : ∀ Q, P (step m Q)) :
    ∀ (n : ℕ) (t : ℚ) (Q : ℕ → ℚ), (Int.ceil ((T - t) / dt m)).toNat ≤ n →
      ∀ R ∈ loop m hm t Q, P R := by
  intro n
  induction n with
  | zero =>
    intro t Q hn R hR
    by_cases h : t < T
    · rcases ceil_measure_succ hm h with ⟨-, h2⟩
      omega
    · rw [loop_of_ge hm h Q] at hR
      exact absurd hR (List.not_mem_nil R)
  | succ n ih =>
    intro t Q hn R hR
    by_cases h : t < T
    · rw [loop_of_lt hm h Q] at hR
      rcases List.mem_cons.mp hR with h' | h'
      · rw [h']; exact hP Q
      · rcases ceil_measure_succ hm h with ⟨h1, h2⟩
        exact ih (t + dt m) (step m Q) (by rw [h1]; omega) R h'
    · rw [loop_of_ge hm h Q] at hR
      exact absurd hR (List.not_mem_nil R)

lemma loop_inv {m : ℕ} (hm : 0 < m) (P : (ℕ → ℚ) → Prop)
    (hP : ∀ Q, P Q → P (step m Q)) :
    ∀ (n : ℕ) (t : ℚ) (Q : ℕ → ℚ), (Int.ceil ((T - t) / dt m)).toNat ≤ n → P Q →
      ∀ R ∈ loop m hm t Q, P R := by
  intro n
  induction n with
  | zero =>
    intro t Q hn hQ R hR
    by_cases h : t < T
    · rcases ceil_measure_succ hm h with ⟨-, h2⟩
      omega
    · rw [loop_of_ge hm h Q] at hR
      exact absurd hR (List.not_mem_nil R)
  | succ n ih =>
    intro t Q hn hQ R hR
    by_cases h : t < T
    · rw [loop_of_lt hm h Q] at hR
      rcases List.mem_cons.mp hR with h' | h'
      · rw [h']; exact hP Q hQ
      · rcases ceil_measure_succ hm h with ⟨h1, h2⟩
        exact ih (t + dt m) (step m Q) (by rw [h1]; omega) (hP Q hQ) R h'
    · rw [loop_of_ge hm h Q] at hR
      exact absurd hR (List.not_mem_nil R)

section ConstState

variable {m : ℕ} {Q : ℕ → ℚ} {c : ℚ}

lemma dQplus_const (hQ : ∀ i, Q i = c) (i : ℕ) : dQplus m Q i = 0 := by
  simp only [dQplus, hQ]
  split <;> ring

lemma dQminus_const (hQ : ∀ i, Q i = c) (i : ℕ) : dQminus m Q i = 0 := by
  simp only [dQminus, hQ]
  split <;> ring

lemma sigma_const (hQ : ∀ i, Q i = c) (i : ℕ) : sigma m Q i = 0 := by
  simp only [sigma, dQplus_const hQ, dQminus_const hQ]
  simp [minmod, sign]

lemma qplus_const (hQ : ∀ i, Q i = c) (i : ℕ) : qplus m Q i = c := by
  simp [qplus, sigma_const hQ, hQ]

lemma qminus_const (hQ : ∀ i, Q i = c) (i : ℕ) : qminus m Q i = c := by
  simp [qminus, sigma_const hQ, hQ]

lemma F_const (hQ : ∀ i, Q i = c) (i : ℕ) :
    F m Q i = if 1 ≤ i ∧ i ≤ m + 2 then f c else 0 := by
  simp only [F, alpha, qplus_const hQ, qminus_const hQ]
  split
  · ring
  · rfl

lemma predictor_const (hQ : ∀ i, Q i = c) {i : ℕ} (h2 : 2 ≤ i) (h3 : i ≤ m + 1) :
    predictor m Q i = c := by
  simp only [predictor, F_const hQ]
  rw [if_pos (show 1 ≤ i + 1 ∧ i + 1 ≤ m + 2 by omega),
      if_pos (show 1 ≤ i ∧ i ≤ m + 2 by omega), hQ i]
  ring

lemma Qstar_const (hQ : ∀ i, Q i = c) (hm1 : 1 ≤ m) (i : ℕ) : Qstar m Q i = c := by
  simp only [Qstar]
  split
  · exact predictor_const hQ (by omega) (by omega)
  · split
    · exact predictor_const hQ (by omega) (by omega)
    · exact predictor_const hQ (by omega) (by omega)

lemma corrector_const (hQ : ∀ i, Q i = c) (hm1 : 1 ≤ m) {i : ℕ}
    (h2 : 2 ≤ i) (h3 : i ≤ m + 1) : corrector m Q i = c := by
  simp only [corrector, F_const (Qstar_const hQ hm1), Qstar_const hQ hm1, hQ i]
  rw [if_pos (show 1 ≤ i + 1 ∧ i + 1 ≤ m + 2 by omega),
      if_pos (show 1 ≤ i ∧ i ≤ m + 2 by omega)]
  ring

lemma step_const (hQ : ∀ i, Q i = c) (hm1 : 1 ≤ m) (i : ℕ) : step m Q i = c := by
  simp only [step]
  split
  · exact corrector_const hQ hm1 (by omega) (by omega)
  · split
    · exact corrector_const hQ hm1 (by omega) (by omega)
    · exact corrector_const hQ hm1 (by omega) (by omega)

lemma iterate_const (hm1 : 1 ≤ m) :
    ∀ (n : ℕ) (R : ℕ → ℚ), (∀ i, R i = c) → ∀ i, (step m)^[n] R i = c := by
  intro n
  induction n with
  | zero => intro R hR i; simpa using hR i
  | succ n ih =>
    intro R hR i
    rw [Function.iterate_succ_apply]
    exact ih (step m R) (step_const hR hm1) i

end ConstState

/-- The constant one-half state (used to instantiate theorems at a concrete
input). -/
def halfQ : ℕ → ℚ := fun _ => 1/2

/-- C4: a constant state `Q ≡ c` with `0 < c < 1` is a fixed point of one
complete time step (predictor, boundary extension, corrector, boundary
extension); hence it is unchanged after any number of steps, and every
history snapshot equals the constant state. -/
theorem constant_state_fixed_point (m : ℕ) (hm : 0 < m) (c : ℚ)
    (_hc0 : 0 < c) (_hc1 : c < 1) (Q : ℕ → ℚ) (hQ : ∀ i, Q i = c) :
    (∀ i, step m Q i = c) ∧
    (∀ (n : ℕ) (i : ℕ), (step m)^[n] Q i = c) ∧
    (∀ R ∈ historyQ m hm Q, ∀ i, R i = c) := by
  have hm1 : 1 ≤ m := hm
  refine ⟨step_const hQ hm1, fun n => iterate_const hm1 n Q hQ, ?_⟩
  intro R hR
  rcases List.mem_cons.mp hR with h | h
  · rw [h]; exact hQ
  · exact loop_inv hm (fun S => ∀ i, S i = c) (fun S hS => step_const hS hm1)
      _ 0 Q le_rfl hQ R h

/-- Witness for C4 at the concrete input `m = 1`, `c = 1/2`, `Q ≡ 1/2`. -/
theorem constant_state_fixed_point_witness :
    (0:ℕ) < 1 ∧ (0:ℚ) < 1/2 ∧ (1:ℚ)/2 < 1 ∧ (∀ i : ℕ, halfQ i = 1/2) ∧
    ((∀ i, step 1 halfQ i = 1/2) ∧
     (∀ (n : ℕ) (i : ℕ), (step 1)^[n] halfQ i = 1/2) ∧
     (∀ R ∈ historyQ 1 (by norm_num) halfQ, ∀ i, R i = 1/2)) :=
  ⟨by norm_num, by norm_num, by norm_num, fun _ => rfl,
    constant_state_fixed_point 1 (by norm_num) (1/2) (by norm_num) (by norm_num)
      halfQ (fun _ => rfl)⟩

/-- C5: whenever the numerical fluxes at the two physical-domain edge
interfaces (padded interface indices 2 and m+2) vanish in both the
predictor and the corrector stage, the interior mass `∑ Q[i]·dx` is exactly
conserved across one full time step (the flux differences telescope). -/
theorem conservation_across_step (m : ℕ) (Q : ℕ → ℚ)
    (hF2 : F m Q 2 = 0) (hFm : F m Q (m+2) = 0)
    (hFs2 : F m (Qstar m Q) 2 = 0) (hFsm : F m (Qstar m Q) (m+2) = 0) :
    interiorSum m (step m Q) = interiorSum m Q := by
  have hstep : ∀ k ∈ Finset.range m, step m Q (k+2) * dx m = Q (k+2) * dx m
      - dt m / dx m * dx m / 2 * ((F m Q (k+3) - F m Q (k+2))
        + (F m (Qstar m Q) (k+3) - F m (Qstar m Q) (k+2))) := by
    intro k hk
    have hk' := Finset.mem_range.mp hk
    have e1 : step m Q (k+2) = corrector m Q (k+2) := by
      simp only [step]
      rw [if_neg (by omega), if_neg (by omega)]
    have e2 : Qstar m Q (k+2) = predictor m Q (k+2) := by
      simp only [Qstar]
      rw [if_neg (by omega), if_neg (by omega)]
    rw [e1]
    simp only [corrector]
    rw [e2]
    simp only [predictor]
    ring
  have t1 : ∑ k ∈ Finset.range m, (F m Q (k+3) - F m Q (k+2))
      = F m Q (m+2) - F m Q 2 := Finset.sum_range_sub (fun k => F m Q (k+2)) m
  have t2 : ∑ k ∈ Finset.range m, (F m (Qstar m Q) (k+3) - F m (Qstar m Q) (k+2))
      = F m (Qstar m Q) (m+2) - F m (Qstar m Q) 2 :=
    Finset.sum_range_sub (fun k => F m (Qstar m Q) (k+2)) m
  simp only [interiorSum]
  rw [Finset.sum_congr rfl hstep, Finset.sum_sub_distrib, ← Finset.mul_sum,
      Finset.sum_add_distrib, t1, t2, hF2, hFm, hFs2, hFsm]
  ring

/-- Witness for C5 at the concrete input `m = 2`, `Q = 0` (all four
boundary fluxes evaluate to zero there). -/
theorem conservation_across_step_witness :
    F 2 zeroQ 2 = 0 ∧ F 2 zeroQ (2+2) = 0 ∧
    F 2 (Qstar 2 zeroQ) 2 = 0 ∧ F 2 (Qstar 2 zeroQ) (2+2) = 0 ∧
    interiorSum 2 (step 2 zeroQ) = interiorSum 2 zeroQ := by
  have h1 : F 2 zeroQ 2 = 0 := by
    norm_num [F, alpha, qplus, qminus, sigma, dQplus, dQminus, minmod, sign, f, zeroQ,
      dx, dt, max_def, abs_eq_max_neg]
  have h2 : F 2 zeroQ (2+2) = 0 := by
    norm_num [F, alpha, qplus, qminus, sigma, dQplus, dQminus, minmod, sign, f, zeroQ,
      dx, dt, max_def, abs_eq_max_neg]
  have h3 : F 2 (Qstar 2 zeroQ) 2 = 0 := by
    norm_num [F, alpha, qplus, qminus, sigma, dQplus, dQminus, minmod, sign, f, zeroQ,
      dx, dt, Qstar, predictor, max_def, abs_eq_max_neg]
  have h4 : F 2 (Qstar 2 zeroQ) (2+2) = 0 := by
    norm_num [F, alpha, qplus, qminus, sigma, dQplus, dQminus, minmod, sign, f, zeroQ,
      dx, dt, Qstar, predictor, max_def, abs_eq_max_neg]
  exact ⟨h1, h2, h3, h4, conservation_across_step 2 zeroQ h1 h2 h3 h4⟩

/-- C6: with `m = 100`, `T = 0.5` and `dt = 0.4·dx = 1/250`, the time loop
terminates at the first time `t ≥ T` (it runs exactly the 125 steps
`t = 0·dt, …, 124·dt`, all `< T`, while `125·dt ≥ T`), the history then
holds `round(T/dt) + 1 = 126` snapshots, and the first snapshot is exactly
the initial state — for every initial-condition function `q0`, in
particular the Gaussian of the script. -/
theorem end_to_end_snapshot_count (q0 : ℚ → ℚ) :
    (history 100 m100_pos q0).length = 126 ∧
    (history 100 m100_pos q0)[0]? = some (initQ 100 q0) ∧
    (round (T / dt 100) + 1 : ℤ) = 126 ∧
    T ≤ 125 * dt 100 ∧
    (∀ k : ℕ, k < 125 → (k:ℚ) * dt 100 < T) := by
  have hdt : dt 100 = 1/250 := by norm_num [dt, dx]
  have hlast : T ≤ (0:ℚ) + (125:ℕ) * dt 100 := by
    rw [hdt]; norm_num [T]
  have hall : ∀ k : ℕ, k < 125 → (0:ℚ) + (k:ℚ) * dt 100 < T := by
    intro k hk
    have hk' : (k:ℚ) ≤ 124 := by exact_mod_cast Nat.lt_succ_iff.mp hk
    rw [hdt]
    simp only [T]
    linarith
  refine ⟨?_, ?_, ?_, by simpa using hlast, fun k hk => by simpa using hall k hk⟩
  · simp only [history, historyQ, List.length_cons]
    rw [loop_length m100_pos 125 0 (initQ 100 q0) hlast hall]
  · simp [history, historyQ]
  · rw [show T / dt 100 = ((125:ℕ):ℚ) by rw [hdt]; norm_num [T], round_natCast]
    norm_num

/-- Witness for C7 at the concrete input `m = 1`. -/
theorem grid_points_witness :
    (0:ℕ) < 1 ∧
    ((x 1).length = 1 + 4 ∧
    (∀ k, k < 1 + 4 → (x 1)[k]? = some (xc 1 k)) ∧
    (x 1)[0]? = some (-3 * dx 1 / 2) ∧
    (∀ k, xc 1 (k+1) - xc 1 k = dx 1 ∧ xc 1 k < xc 1 (k+1)) ∧
    (x 1)[1+3]? = some (1 + 5 * dx 1 / 2 - dx 1)) :=
  ⟨by norm_num, grid_points 1 (by norm_num)⟩

lemma step_ghost {m : ℕ} (hm : 0 < m) (Q : ℕ → ℚ) :
    step m Q 0 = step m Q 2 ∧ step m Q 1 = step m Q 2 ∧
    step m Q (m+3) = step m Q (m+1) ∧ step m Q (m+2) = step m Q (m+1) := by
  refine ⟨?_, ?_, ?_, ?_⟩ <;> simp only [step]
  · rw [if_pos (by omega : (0:ℕ) ≤ 1), if_neg (by omega : ¬ (2:ℕ) ≤ 1),
      if_neg (by omega : ¬ m + 2 ≤ 2)]
  · rw [if_pos (by omega : (1:ℕ) ≤ 1), if_neg (by omega : ¬ (2:ℕ) ≤ 1),
      if_neg (by omega : ¬ m + 2 ≤ 2)]
  · rw [if_neg (by omega : ¬ m + 3 ≤ 1), if_pos (by omega : m + 2 ≤ m + 3),
      if_neg (by omega : ¬ m + 1 ≤ 1), if_neg (by omega : ¬ m + 2 ≤ m + 1)]
  · rw [if_neg (by omega : ¬ m + 2 ≤ 1), if_pos (by omega : m + 2 ≤ m + 2),
      if_neg (by omega : ¬ m + 1 ≤ 1), if_neg (by omega : ¬ m + 2 ≤ m + 1)]

/-- C10: every history snapshot after the initial one satisfies the
ghost-cell invariant `Q[0] = Q[1] = Q[2]` and `Q[m+3] = Q[m+2] = Q[m+1]`,
while the initial snapshot simply holds the initial-condition function
evaluated at every grid coordinate, ghost coordinates included — the
boundary extender is never applied to it before it is recorded.  (For the
script's Gaussian `0.9·exp(-100(x-1/2)²)` with `m = 100`, the ghost value
at `x[0] = -3/200` indeed differs from the interior value at
`x[2] = 1/200`, so the initial snapshot violates the invariant.) -/
theorem ghost_cell_invariant (m : ℕ) (hm : 0 < m) (q0 : ℚ → ℚ) :
    (∀ (n : ℕ) (R : ℕ → ℚ), 1 ≤ n → (history m hm q0)[n]? = some R →
      R 0 = R 2 ∧ R 1 = R 2 ∧ R (m+3) = R (m+1) ∧ R (m+2) = R (m+1)) ∧
    (history m hm q0)[0]? = some (initQ m q0) ∧
    (∀ i, initQ m q0 i = q0 (xc m i)) ∧
    (xc 100 0 = -3/200 ∧ xc 100 2 = 1/200) ∧
    (0.9 : ℝ) * Real.exp (-100 * ((-3/200 : ℝ) - 1/2)^2) ≠
      (0.9 : ℝ) * Real.exp (-100 * ((1/200 : ℝ) - 1/2)^2) := by
  refine ⟨?_, by simp [history, historyQ], fun i => rfl,
    ⟨by norm_num [xc, dx], by norm_num [xc, dx]⟩, ?_⟩
  · intro n R hn hR
    have hmem : R ∈ loop m hm 0 (initQ m q0) := by
      obtain ⟨n', rfl⟩ : ∃ n', n = n' + 1 := ⟨n - 1, by omega⟩
      simp only [history, historyQ, List.getElem?_cons_succ] at hR
      exact List.getElem?_mem hR
    exact loop_all hm
      (fun S => S 0 = S 2 ∧ S 1 = S 2 ∧ S (m+3) = S (m+1) ∧ S (m+2) = S (m+1))
      (step_ghost hm) _ 0 (initQ m q0) le_rfl R hmem
  · have hlt : (-100 : ℝ) * ((-3/200 : ℝ) - 1/2)^2 < -100 * ((1/200 : ℝ) - 1/2)^2 := by
      norm_num
    have := Real.exp_lt_exp.mpr hlt
    intro hcontra
    nlinarith [Real.exp_pos ((-100 : ℝ) * ((-3/200 : ℝ) - 1/2)^2)]

/-- Witness for C10 at the concrete input `m = 100`, `q0 = id`. -/
theorem ghost_cell_invariant_witness :
    (0:ℕ) < 100 ∧
    ((∀ (n : ℕ) (R : ℕ → ℚ), 1 ≤ n → (history 100 (by norm_num) (fun q => q))[n]? = some R →
      R 0 = R 2 ∧ R 1 = R 2 ∧ R (100+3) = R (100+1) ∧ R (100+2) = R (100+1)) ∧
    (history 100 (by norm_num) (fun q => q))[0]? = some (initQ 100 (fun q => q)) ∧
    (∀ i, initQ 100 (fun q => q) i = xc 100 i) ∧
    (xc 100 0 = -3/200 ∧ xc 100 2 = 1/200) ∧
    (0.9 : ℝ) * Real.exp (-100 * ((-3/200 : ℝ) - 1/2)^2) ≠
      (0.9 : ℝ) * Real.exp (-100 * ((1/200 : ℝ) - 1/2)^2)) :=
  ⟨by norm_num, ghost_cell_invariant 100 (by norm_num) (fun q => q)⟩

section Mirror

variable {m : ℕ} {Q : ℕ → ℚ}

/-- The symmetry actually preserved by the scheme: reflection about
`x = 1/2` (index `i ↦ m+3-i`) combined with the value conjugation
`q ↦ 1-q` under which the flux `f(q) = q(1-q)` is invariant. -/
def MirrorSym (m : ℕ) (Q : ℕ → ℚ) : Prop := ∀ i, i ≤ m + 3 → Q i = 1 - Q (m + 3 - i)

lemma f_one_sub (q : ℚ) : f (1 - q) = f q := by
  simp only [f]
  ring

lemma dQplus_mirror (hQ : MirrorSym m Q) (i : ℕ) :
    dQplus m Q i = dQminus m Q (m + 3 - i) := by
  by_cases h : i ≤ m + 2
  · have h1 := hQ i (by omega)
    have h2 := hQ (i+1) (by omega)
    rw [show m + 3 - (i+1) = m + 2 - i by omega] at h2
    have hg : 1 ≤ m + 3 - i ∧ m + 3 - i ≤ m + 3 := by omega
    simp only [dQplus, dQminus, if_pos h, if_pos hg,
      show m + 3 - i - 1 = m + 2 - i by omega]
    rw [h1, h2]
    ring
  · have hg : ¬ (1 ≤ m + 3 - i ∧ m + 3 - i ≤ m + 3) := by omega
    simp only [dQplus, dQminus, if_neg h, if_neg hg]

lemma dQminus_mirror (hQ : MirrorSym m Q) {i : ℕ} (hi : i ≤ m + 3) :
    dQminus m Q i = dQplus m Q (m + 3 - i) := by
  have h := dQplus_mirror hQ (m + 3 - i)
  rw [show m + 3 - (m + 3 - i) = i by omega] at h
  exact h.symm

lemma sigma_mirror (hQ : MirrorSym m Q) {i : ℕ} (hi : i ≤ m + 3) :
    sigma m Q i = sigma m Q (m + 3 - i) := by
  simp only [sigma]
  rw [dQplus_mirror hQ i, dQminus_mirror hQ hi, minmod_comm]

lemma qplus_mirror (hQ : MirrorSym m Q) {i : ℕ} (hi : i ≤ m + 3) :
    qplus m Q i = 1 - qminus m Q (m + 4 - i) := by
  simp only [qplus, qminus, show m + 4 - i - 1 = m + 3 - i by omega]
  rw [hQ i hi, sigma_mirror hQ hi]
  ring

lemma qminus_mirror (hQ : MirrorSym m Q) {i : ℕ} (hi1 : 1 ≤ i) (hi2 : i ≤ m + 4) :
    qminus m Q i = 1 - qplus m Q (m + 4 - i) := by
  simp only [qplus, qminus]
  have h1 := hQ (i-1) (by omega)
  rw [show m + 3 - (i - 1) = m + 4 - i by omega] at h1
  have h2 := sigma_mirror hQ (show i - 1 ≤ m + 3 by omega)
  rw [show m + 3 - (i - 1) = m + 4 - i by omega] at h2
  rw [h1, h2]
  ring

lemma alpha_mirror (hQ : MirrorSym m Q) {i : ℕ} (hi1 : 1 ≤ i) (hi2 : i ≤ m + 3) :
    alpha m Q i = alpha m Q (m + 4 - i) := by
  simp only [alpha]
  rw [qplus_mirror hQ hi2, qminus_mirror hQ hi1 (by omega)]
  rw [show (1 : ℚ) - 2 * (1 - qminus m Q (m + 4 - i)) = -(1 - 2 * qminus m Q (m + 4 - i)) by ring,
    show (1 : ℚ) - 2 * (1 - qplus m Q (m + 4 - i)) = -(1 - 2 * qplus m Q (m + 4 - i)) by ring,
    abs_neg, abs_neg, max_comm]

lemma F_mirror (hQ : MirrorSym m Q) {i : ℕ} (hi1 : 2 ≤ i) (hi2 : i ≤ m + 2) :
    F m Q i = F m Q (m + 4 - i) := by
  have hg1 : 1 ≤ i ∧ i ≤ m + 2 := ⟨by omega, hi2⟩
  have hg2 : 1 ≤ m + 4 - i ∧ m + 4 - i ≤ m + 2 := by omega
  simp only [F, if_pos hg1, if_pos hg2]
  have hqp := qplus_mirror hQ (show i ≤ m + 3 by omega)
  have hqm := qminus_mirror hQ (show 1 ≤ i by omega) (show i ≤ m + 4 by omega)
  have hα := alpha_mirror hQ (show 1 ≤ i by omega) (show i ≤ m + 3 by omega)
  rw [hqp, hqm, hα, f_one_sub, f_one_sub]
  ring

lemma predictor_mirror (hQ : MirrorSym m Q) {i : ℕ} (hi1 : 2 ≤ i) (hi2 : i ≤ m + 1) :
    predictor m Q i = 1 - predictor m Q (m + 3 - i) := by
  simp only [predictor]
  have hF1 : F m Q (i+1) = F m Q (m + 3 - i) := by
    have h := F_mirror hQ (show 2 ≤ i + 1 by omega) (show i + 1 ≤ m + 2 by omega)
    rw [show m + 4 - (i+1) = m + 3 - i by omega] at h
    exact h
  have hF2 : F m Q i = F m Q (m + 4 - i) := F_mirror hQ hi1 (by omega)
  rw [hF1, hF2, hQ i (by omega), show m + 3 - i + 1 = m + 4 - i by omega]
  ring

lemma Qstar_mirror (hm1 : 1 ≤ m) (hQ : MirrorSym m Q) {i : ℕ} (hi : i ≤ m + 3) :
    Qstar m Q i = 1 - Qstar m Q (m + 3 - i) := by
  simp only [Qstar]
  by_cases h1 : i ≤ 1
  · rw [if_pos h1, if_neg (show ¬ m + 3 - i ≤ 1 by omega),
      if_pos (show m + 2 ≤ m + 3 - i by omega)]
    have h := predictor_mirror hQ (le_refl 2) (show 2 ≤ m + 1 by omega)
    rw [show m + 3 - 2 = m + 1 by omega] at h
    exact h
  · by_cases h2 : m + 2 ≤ i
    · rw [if_neg h1, if_pos h2, if_pos (show m + 3 - i ≤ 1 by omega)]
      have h := predictor_mirror hQ (le_refl 2) (show 2 ≤ m + 1 by omega)
      rw [show m + 3 - 2 = m + 1 by omega] at h
      linarith
    · rw [if_neg h1, if_neg h2, if_neg (show ¬ m + 3 - i ≤ 1 by omega),
        if_neg (show ¬ m + 2 ≤ m + 3 - i by omega)]
      exact predictor_mirror hQ (by omega) (by omega)

lemma Qstar_mirrorSym (hm1 : 1 ≤ m) (hQ : MirrorSym m Q) : MirrorSym m (Qstar m Q) :=
  fun _ hi => Qstar_mirror hm1 hQ hi

lemma corrector_mirror (hm1 : 1 ≤ m) (hQ : MirrorSym m Q) {i : ℕ}
    (hi1 : 2 ≤ i) (hi2 : i ≤ m + 1) :
    corrector m Q i = 1 - corrector m Q (m + 3 - i) := by
  have hQs := Qstar_mirrorSym hm1 hQ
  simp only [corrector]
  have hFs1 : F m (Qstar m Q) (i+1) = F m (Qstar m Q) (m + 3 - i) := by
    have h := F_mirror hQs (show 2 ≤ i + 1 by omega) (show i + 1 ≤ m + 2 by omega)
    rw [show m + 4 - (i+1) = m + 3 - i by omega] at h
    exact h
  have hFs2 : F m (Qstar m Q) i = F m (Qstar m Q) (m + 4 - i) := F_mirror hQs hi1 (by omega)
  rw [hFs1, hFs2, hQ i (by omega), Qstar_mirror hm1 hQ (show i ≤ m + 3 by omega),
    show m + 3 - i + 1 = m + 4 - i by omega]
  ring

lemma step_mirror (hm1 : 1 ≤ m) (hQ : MirrorSym m Q) : MirrorSym m (step m Q) := by
  intro i hi
  simp only [step]
  by_cases h1 : i ≤ 1
  · rw [if_pos h1, if_neg (show ¬ m + 3 - i ≤ 1 by omega),
      if_pos (show m + 2 ≤ m + 3 - i by omega)]
    have h := corrector_mirror hm1 hQ (le_refl 2) (show 2 ≤ m + 1 by omega)
    rw [show m + 3 - 2 = m + 1 by omega] at h
    exact h
  · by_cases h2 : m + 2 ≤ i
    · rw [if_neg h1, if_pos h2, if_pos (show m + 3 - i ≤ 1 by omega)]
      have h := corrector_mirror hm1 hQ (le_refl 2) (show 2 ≤ m + 1 by omega)
      rw [show m + 3 - 2 = m + 1 by omega] at h
      linarith
    · rw [if_neg h1, if_neg h2, if_neg (show ¬ m + 3 - i ≤ 1 by omega),
        if_neg (show ¬ m + 2 ≤ m + 3 - i by omega)]
      exact corrector_mirror hm1 hQ (by omega) (by omega)

end Mirror

/-- The concrete mirror-symmetric initial state used to refute C8: a bump
of height 1/2 on the two central cells of the `m = 100` grid. -/
def bumpQ : ℕ → ℚ := fun i => if i = 51 ∨ i = 52 then 1/2 else 0

set_option maxHeartbeats 2000000 in
/-- C8 counterexample: on the script's grid (`m = 100`, mirrored padded
index `103 - i`), the initial state `bumpQ` is symmetric about `x = 1/2`,
yet the second recorded snapshot of its history — the state after the
first time step — is not: at the two mirrored central cells 51 and 52 it
takes the distinct values 9/25 and 19/50. -/
theorem mirror_symmetry_not_preserved :
    (∀ i, i ≤ 103 → bumpQ i = bumpQ (103 - i)) ∧
    (historyQ 100 m100_pos bumpQ)[1]? = some (step 100 bumpQ) ∧
    step 100 bumpQ 51 = 9/25 ∧ step 100 bumpQ (103 - 51) = 19/50 ∧
    step 100 bumpQ 51 ≠ step 100 bumpQ (103 - 51) := by
  have h51 : step 100 bumpQ 51 = 9/25 := by
    norm_num [step, corrector, Qstar, predictor, F, alpha, qplus, qminus, sigma,
      dQplus, dQminus, minmod, sign, f, dx, dt, bumpQ, max_def, abs_eq_max_neg]
  have h52 : step 100 bumpQ (103 - 51) = 19/50 := by
    norm_num [step, corrector, Qstar, predictor, F, alpha, qplus, qminus, sigma,
      dQplus, dQminus, minmod, sign, f, dx, dt, bumpQ, max_def, abs_eq_max_neg]
  refine ⟨?_, ?_, h51, h52, by rw [h51, h52]; norm_num⟩
  · intro i hi
    simp only [bumpQ]
    by_cases h : i = 51 ∨ i = 52
    · rw [if_pos h, if_pos (show 103 - i = 51 ∨ 103 - i = 52 by omega)]
    · rw [if_neg h, if_neg (show ¬ (103 - i = 51 ∨ 103 - i = 52) by omega)]
  · simp only [historyQ]
    rw [List.getElem?_cons_succ, loop_of_lt m100_pos (by norm_num [T]) bumpQ]
    simp

/-- C8 (amended): the scheme preserves the combined symmetry of the flux
`f(q) = q(1-q)` — reflection about `x = 1/2` together with the value
conjugation `q ↦ 1-q`.  If the initial state satisfies
`Q[i] = 1 - Q[m+3-i]` on the padded grid, then every recorded snapshot
does as well. -/
theorem history_conjugate_symmetry (m : ℕ) (hm : 0 < m) (Q0 : ℕ → ℚ)
    (hQ0 : ∀ i, i ≤ m + 3 → Q0 i = 1 - Q0 (m + 3 - i)) :
    ∀ R ∈ historyQ m hm Q0, ∀ i, i ≤ m + 3 → R i = 1 - R (m + 3 - i) := by
  intro R hR
  rcases List.mem_cons.mp hR with h | h
  · rw [h]; exact hQ0
  · exact loop_inv hm (MirrorSym m) (fun S hS => step_mirror hm hS) _ 0 Q0 le_rfl hQ0 R h

/-- Witness for the amended C8 at the concrete input `m = 1`, `Q0 ≡ 1/2`. -/
theorem history_conjugate_symmetry_witness :
    (0:ℕ) < 1 ∧ (∀ i, i ≤ 1 + 3 → halfQ i = 1 - halfQ (1 + 3 - i)) ∧
    (∀ R ∈ historyQ 1 (by norm_num) halfQ, ∀ i, i ≤ 1 + 3 → R i = 1 - R (1 + 3 - i)) :=
  ⟨by norm_num, fun i _ => by norm_num [halfQ],
    history_conjugate_symmetry 1 (by norm_num) halfQ (fun i _ => by norm_num [halfQ])⟩

end LxF
